import Mathlib

/-! Shallow embedding of the `blockchain-base` crate.

Source files embedded:
* `src/lib.rs`        — constants `VERSION`, `BLOCKHASHLEN`, type `BlockHash`
* `src/byteable.rs`   — trait `Byteable`; the slice instance `impl Byteable for [T]`
* `src/hashable.rs`   — trait `Hashable` (the method `calculate_hash`)
* `src/blockchainblock.rs` — `BlockchainBlock<T>`, `new`, `check_value_inblock`,
  `calculate_merkle_hash`, `calculate_merkle_root`, `calculate_hash`

Bytes are modelled as natural numbers (`Byte := Nat`, produced values are
always `< 256` where the source produces `u8`), byte strings as `List Nat`.

The SHA-256 digest comes from the external `crypto_hash` crate, which is not
part of this repository.  It is modelled from the spec: an abstract function
`H : Bytes → BlockHash` ("a fixed cryptographic digest (SHA-256, 32-byte
output) applied to byte sequences. External primitive, not reimplemented").
Every definition is parameterised by `H`; claims that depend on properties of
SHA-256 (fixed 32-byte output, collision freeness) take those properties as
explicit hypotheses.

The payload type `T` with its `Byteable` instance is likewise abstracted as a
serialisation function `bytesT : T → Bytes` (the source crate ships instances
for `i32`, `String` and slices; the block is generic over any `T : Byteable`).
-/

namespace BlockchainBase

/-- A byte, modelled as a natural number. -/
abbrev Byte := Nat

/-- A byte string. -/
abbrev Bytes := List Byte

/-- Constant from src/lib.rs: `pub const BLOCKHASHLEN : usize = 32;`. -/
def BLOCKHASHLEN : Nat := 32

/-- Type from src/lib.rs: `pub type BlockHash = [u8; BLOCKHASHLEN];`.
We model the hash as a byte list; the digest primitive always returns
32 bytes in the source, which becomes an explicit hypothesis where needed. -/
abbrev BlockHash := Bytes

/-- Constant from src/lib.rs: `pub const VERSION: u8 = 1;`. -/
def VERSION : Nat := 1

/-- The all-zero hash `[0; BLOCKHASHLEN]` used as sentinel in `new`. -/
def zeroHash : BlockHash := List.replicate BLOCKHASHLEN 0

/-- Little-endian serialization `u64::to_le_bytes`: the 8 bytes of a 64-bit value. -/
def u64le (x : Nat) : Bytes :=
  [x % 256, x / 2 ^ 8 % 256, x / 2 ^ 16 % 256, x / 2 ^ 24 % 256,
   x / 2 ^ 32 % 256, x / 2 ^ 40 % 256, x / 2 ^ 48 % 256, x / 2 ^ 56 % 256]

/-- Little-endian serialization `u8::to_le_bytes`: the single byte of an 8-bit value. -/
def u8le (x : Nat) : Bytes := [x % 256]

/-- Slice instance of `Byteable` from src/byteable.rs (`impl<T> Byteable for [T]`):
the byte serialization of a slice is the concatenation, in iteration order, of
the bytes of each element
(`for x in self { data.extend(x.bytes().iter().cloned()); }`). -/
def sliceBytes {T : Type} (bytesT : T → Bytes) : List T → Bytes
  | [] => []
  | x :: xs => bytesT x ++ sliceBytes bytesT xs

/-- Method `calculate_merkle_hash` from src/blockchainblock.rs: place `block_left` in the
first `BLOCKHASHLEN` bytes of a double-length buffer and `block_right` in the
rest (i.e. concatenate them, both being 32-byte hashes), and digest once. -/
def calculate_merkle_hash (H : Bytes → BlockHash) (block_left block_right : BlockHash) :
    BlockHash :=
  H (block_left ++ block_right)

/-- Method `calculate_merkle_root` from src/blockchainblock.rs, embedded as a function on
non-empty lists: on a slice of size 1 it hashes `bytes(blocks[0])` twice
concatenated, on size 2 it hashes `bytes(blocks[0]) ++ bytes(blocks[1])`, and
otherwise it splits at `size / 2` (`split_at`), recurses on both halves and
combines with `calculate_merkle_hash`.  On the empty slice the source never
returns (the default arm recurses on empty halves forever), so the embedding
restricts the domain; `merkleRootFuel` below is the unrestricted transcription. -/
def calculate_merkle_root {T : Type} (H : Bytes → BlockHash) (bytesT : T → Bytes) :
    (blocks : List T) → blocks ≠ [] → BlockHash
  | [], h => absurd rfl h
  | [x], _ => H (bytesT x ++ bytesT x)
  | [x, y], _ => H (bytesT x ++ bytesT y)
  | x :: y :: z :: rest, _ =>
    calculate_merkle_hash H
      (calculate_merkle_root H bytesT
        ((x :: y :: z :: rest).take ((x :: y :: z :: rest).length / 2))
        (by
          intro hnil
          have hlen := congrArg List.length hnil
          simp [List.length_take] at hlen
          omega))
      (calculate_merkle_root H bytesT
        ((x :: y :: z :: rest).drop ((x :: y :: z :: rest).length / 2))
        (by
          intro hnil
          have hlen := congrArg List.length hnil
          simp [List.length_drop] at hlen
          omega))
termination_by blocks _ => blocks.length
decreasing_by
  · simp [List.length_take]; omega
  · simp [List.length_drop]; omega

/-- Fuel-indexed transcription of `calculate_merkle_root` exactly as written in
the source, including the default match arm that the empty slice falls into
(`split_at(0)` on the empty slice recurses on two empty slices, so the source
diverges there; the fuel version answers `none` once fuel is exhausted). -/
def merkleRootFuel {T : Type} (H : Bytes → BlockHash) (bytesT : T → Bytes) :
    Nat → List T → Option BlockHash
  | 0, _ => none
  | fuel + 1, blocks =>
    match blocks with
    | [x] => some (H (bytesT x ++ bytesT x))
    | [x, y] => some (H (bytesT x ++ bytesT y))
    | _ =>
      match merkleRootFuel H bytesT fuel (blocks.take (blocks.length / 2)),
            merkleRootFuel H bytesT fuel (blocks.drop (blocks.length / 2)) with
      | some l, some r => some (calculate_merkle_hash H l r)
      | _, _ => none

/-- Structure `BlockchainBlock<T>` from src/blockchainblock.rs (the borrowed
payload slice becomes a list). -/
structure BlockchainBlock (T : Type) where
  curr_hash : BlockHash
  prev_hash : Option BlockHash
  data : List T
  timestamp : Nat
  nonce : Nat
  merkle_root : BlockHash
  version : Nat

/-- The byte string hashed by `calculate_hash` (impl `Hashable` in
`src/blockchainblock.rs`): previous-hash bytes when `Some` (nothing when
`None`), then the bytes of the payload slice, then `timestamp.to_le_bytes()`, then
`nonce.to_le_bytes()`, then the merkle root bytes, then
`version.to_le_bytes()`, pushed in exactly this order. -/
def headerBytes {T : Type} (bytesT : T → Bytes) (b : BlockchainBlock T) : Bytes :=
  (match b.prev_hash with
   | some prev_h => prev_h
   | none => []) ++
  sliceBytes bytesT b.data ++
  u64le b.timestamp ++
  u64le b.nonce ++
  b.merkle_root ++
  u8le b.version

/-- Method `calculate_hash` (impl `Hashable for BlockchainBlock` in
`src/blockchainblock.rs`): digest the header bytes once and store the result
in `curr_hash`; no other field is touched. -/
def calculate_hash {T : Type} (H : Bytes → BlockHash) (bytesT : T → Bytes)
    (b : BlockchainBlock T) : BlockchainBlock T :=
  { b with curr_hash := H (headerBytes bytesT b) }

/-- Constructor `BlockchainBlock::new`: build the block with zeroed hashes and
`version := VERSION`, compute the merkle root from `data` only when
`data.len() > 0`, then compute `curr_hash` via `calculate_hash`. -/
def new {T : Type} (H : Bytes → BlockHash) (bytesT : T → Bytes)
    (prev_hash : Option BlockHash) (data : List T) (timestamp nonce : Nat) :
    BlockchainBlock T :=
  let block : BlockchainBlock T :=
    { prev_hash := prev_hash
      data := data
      timestamp := timestamp
      merkle_root := zeroHash
      nonce := nonce
      version := VERSION
      curr_hash := zeroHash }
  let block1 : BlockchainBlock T :=
    if h : 0 < data.length then
      { block with merkle_root := calculate_merkle_root H bytesT data (List.length_pos.mp h) }
    else block
  calculate_hash H bytesT block1

/-- Method `BlockchainBlock::check_value_inblock`: return `false` when
`position >= self.data.len()`; otherwise copy the payload, overwrite the
element at `position` with the candidate, recompute the merkle root of the
copy and compare it with the stored `merkle_root`. -/
def check_value_inblock {T : Type} (H : Bytes → BlockHash) (bytesT : T → Bytes)
    (b : BlockchainBlock T) (data : T) (position : Nat) : Bool :=
  if h : position ≥ b.data.length then false
  else
    if calculate_merkle_root H bytesT (b.data.set position data)
        (by
          intro hnil
          have hlen := congrArg List.length hnil
          simp only [List.length_set, List.length_nil] at hlen
          omega) = b.merkle_root
    then true else false

/-- Transcription of `BlockchainBlock::new` with the fuel-indexed merkle root
(fuel `data.length`); `none` would mean the merkle computation ran out of
fuel, i.e. failed to terminate within `data.length` unfoldings. -/
def newFuel {T : Type} (H : Bytes → BlockHash) (bytesT : T → Bytes)
    (prev_hash : Option BlockHash) (data : List T) (timestamp nonce : Nat) :
    Option (BlockchainBlock T) :=
  let block : BlockchainBlock T :=
    { prev_hash := prev_hash
      data := data
      timestamp := timestamp
      merkle_root := zeroHash
      nonce := nonce
      version := VERSION
      curr_hash := zeroHash }
  if 0 < data.length then
    match merkleRootFuel H bytesT data.length data with
    | some mr => some (calculate_hash H bytesT { block with merkle_root := mr })
    | none => none
  else some (calculate_hash H bytesT block)

/-- Transcription of `BlockchainBlock::check_value_inblock` with the fuel-indexed
merkle root (fuel: length of the overwritten payload copy). -/
def checkFuel {T : Type} (H : Bytes → BlockHash) (bytesT : T → Bytes)
    (b : BlockchainBlock T) (data : T) (position : Nat) : Option Bool :=
  if position ≥ b.data.length then some false
  else
    match merkleRootFuel H bytesT (b.data.set position data).length
        (b.data.set position data) with
    | some r => some (if r = b.merkle_root then true else false)
    | none => none

/-- A concrete digest with the two properties the spec ascribes to SHA-256 in
this model (fixed 32-byte output, no collisions), used to instantiate the
abstract digest parameter on concrete inputs: the first byte encodes the
input injectively, the remaining 31 bytes are zero padding. -/
def encodeHash (bs : Bytes) : BlockHash :=
  Encodable.encode bs :: List.replicate 31 0

/-! Equation lemmas for `calculate_merkle_root`. -/

lemma calculate_merkle_root_one {T : Type} (H : Bytes → BlockHash) (bytesT : T → Bytes)
    (x : T) (h : [x] ≠ []) :
    calculate_merkle_root H bytesT [x] h = H (bytesT x ++ bytesT x) := by
  simp [calculate_merkle_root]

lemma calculate_merkle_root_two {T : Type} (H : Bytes → BlockHash) (bytesT : T → Bytes)
    (x y : T) (h : [x, y] ≠ []) :
    calculate_merkle_root H bytesT [x, y] h = H (bytesT x ++ bytesT y) := by
  simp [calculate_merkle_root]

lemma take_half_ne_nil {T : Type} {blocks : List T} (hlen : 2 < blocks.length) :
    blocks.take (blocks.length / 2) ≠ [] := by
  intro hnil
  have hl := congrArg List.length hnil
  simp only [List.length_take, List.length_nil] at hl
  omega

lemma drop_half_ne_nil {T : Type} {blocks : List T} (hlen : 2 < blocks.length) :
    blocks.drop (blocks.length / 2) ≠ [] := by
  intro hnil
  have hl := congrArg List.length hnil
  simp only [List.length_drop, List.length_nil] at hl
  omega

lemma calculate_merkle_root_split {T : Type} (H : Bytes → BlockHash) (bytesT : T → Bytes)
    (blocks : List T) (hlen : 2 < blocks.length) (h : blocks ≠ []) :
    calculate_merkle_root H bytesT blocks h =
      H (calculate_merkle_root H bytesT (blocks.take (blocks.length / 2))
           (take_half_ne_nil hlen) ++
         calculate_merkle_root H bytesT (blocks.drop (blocks.length / 2))
           (drop_half_ne_nil hlen)) := by
  match blocks, hlen with
  | x :: y :: z :: rest, _ =>
    simp [calculate_merkle_root, calculate_merkle_hash]

/-- Fuel adequacy: on a non-empty slice, `length blocks` recursion unfoldings
suffice, and the fuelled transcription agrees with the total embedding. -/
lemma merkleRootFuel_eq {T : Type} (H : Bytes → BlockHash) (bytesT : T → Bytes) :
    ∀ (fuel : Nat) (blocks : List T) (h : blocks ≠ []), blocks.length ≤ fuel →
      merkleRootFuel H bytesT fuel blocks =
        some (calculate_merkle_root H bytesT blocks h) := by
  intro fuel
  induction fuel with
  | zero =>
    intro blocks h hle
    exfalso
    have := List.length_pos.mpr h
    omega
  | succ fuel ih =>
    intro blocks h hle
    match blocks with
    | [x] => simp [merkleRootFuel, calculate_merkle_root]
    | [x, y] => simp [merkleRootFuel, calculate_merkle_root]
    | x :: y :: z :: rest =>
      have hlen : 2 < (x :: y :: z :: rest).length := by
        simp [List.length_cons]
      have hle' : (x :: y :: z :: rest).length ≤ fuel + 1 := hle
      simp only [List.length_cons] at hle'
      rw [calculate_merkle_root_split H bytesT _ hlen h]
      have h1 := take_half_ne_nil hlen
      have h2 := drop_half_ne_nil hlen
      have hl1 :
          ((x :: y :: z :: rest).take ((x :: y :: z :: rest).length / 2)).length ≤ fuel := by
        simp only [List.length_take, List.length_cons]
        omega
      have hl2 :
          ((x :: y :: z :: rest).drop ((x :: y :: z :: rest).length / 2)).length ≤ fuel := by
        simp only [List.length_drop, List.length_cons]
        omega
      simp only [merkleRootFuel]
      rw [ih _ h1 hl1, ih _ h2 hl2]
      rfl

/-- Proof-irrelevant congruence for `calculate_merkle_root`. -/
lemma calculate_merkle_root_congr {T : Type} (H : Bytes → BlockHash) (bytesT : T → Bytes)
    {bs1 bs2 : List T} (e : bs1 = bs2) (hb1 : bs1 ≠ []) (hb2 : bs2 ≠ []) :
    calculate_merkle_root H bytesT bs1 hb1 = calculate_merkle_root H bytesT bs2 hb2 := by
  subst e; rfl

lemma set_ne_nil_of_lt {α : Type} {l : List α} {p : Nat} (hp : p < l.length) (a : α) :
    l.set p a ≠ [] := by
  simp only [ne_eq, List.set_eq_nil_iff]
  intro hd
  subst hd
  simp at hp

lemma set_getElem_eq_self {α : Type} (l : List α) (p : Nat) (hp : p < l.length) :
    l.set p (l.get ⟨p, hp⟩) = l := by
  apply List.ext_getElem (by simp)
  intro n h1 h2
  simp only [List.getElem_set, List.get_eq_getElem]
  split <;> simp_all

/-- The constructor stores the payload argument unchanged. -/
lemma new_data {T : Type} (H : Bytes → BlockHash) (bytesT : T → Bytes)
    (prev_hash : Option BlockHash) (data : List T) (timestamp nonce : Nat) :
    (new H bytesT prev_hash data timestamp nonce).data = data := by
  simp only [new, calculate_hash]
  split <;> rfl

/-- The constructor computes the merkle root of a non-empty payload. -/
lemma new_merkle_root_ne_nil {T : Type} (H : Bytes → BlockHash) (bytesT : T → Bytes)
    (prev_hash : Option BlockHash) (data : List T) (timestamp nonce : Nat)
    (h : data ≠ []) :
    (new H bytesT prev_hash data timestamp nonce).merkle_root =
      calculate_merkle_root H bytesT data h := by
  have hpos : 0 < data.length := List.length_pos.mpr h
  simp [new, calculate_hash, hpos]

/-- In-bounds unfolding of `check_value_inblock`: the result is `true` exactly
when the recomputed merkle root of the overwritten payload matches the stored
`merkle_root`. -/
lemma check_value_inblock_true_iff {T : Type} (H : Bytes → BlockHash) (bytesT : T → Bytes)
    (b : BlockchainBlock T) (c : T) (p : Nat) (hp : p < b.data.length)
    (hne : b.data.set p c ≠ []) :
    check_value_inblock H bytesT b c p = true ↔
      calculate_merkle_root H bytesT (b.data.set p c) hne = b.merkle_root := by
  rw [check_value_inblock, dif_neg (Nat.not_le.mpr hp)]
  split
  · next hcond => exact iff_of_true rfl hcond
  · next hcond => exact iff_of_false (by simp) hcond

/-- Every merkle root is a digest, so under the fixed-output-length property of
the digest primitive it has `BLOCKHASHLEN` bytes. -/
lemma calculate_merkle_root_length {T : Type} (H : Bytes → BlockHash) (bytesT : T → Bytes)
    (Hlen : ∀ bs, (H bs).length = BLOCKHASHLEN) (blocks : List T) (h : blocks ≠ []) :
    (calculate_merkle_root H bytesT blocks h).length = BLOCKHASHLEN := by
  rcases blocks with _ | ⟨x, _ | ⟨y, _ | ⟨z, rest⟩⟩⟩
  · exact absurd rfl h
  · rw [calculate_merkle_root_one]; exact Hlen _
  · rw [calculate_merkle_root_two]; exact Hlen _
  · rw [calculate_merkle_root_split H bytesT _ (by simp [List.length_cons]) h]
    exact Hlen _

/-- Merkle sensitivity: when the digest is collision-free and fixed-length and
the leaf serialization is injective, overwriting any single in-bounds leaf
with a value that keeps the root unchanged means the value was the original
leaf. -/
lemma merkle_root_set_ne {T : Type} (H : Bytes → BlockHash) (bytesT : T → Bytes)
    (Hinj : Function.Injective H) (Hlen : ∀ bs, (H bs).length = BLOCKHASHLEN)
    (Binj : Function.Injective bytesT) :
    ∀ (n : Nat) (blocks : List T), blocks.length = n →
      ∀ (p : Nat) (hp : p < blocks.length) (c : T) (h1 : blocks.set p c ≠ [])
        (h2 : blocks ≠ []),
        calculate_merkle_root H bytesT (blocks.set p c) h1 =
          calculate_merkle_root H bytesT blocks h2 →
        c = blocks.get ⟨p, hp⟩ := by
  intro n
  induction n using Nat.strong_induction_on with
  | _ n ih =>
    intro blocks hn p hp c h1 h2 heq
    rcases blocks with _ | ⟨x, _ | ⟨y, _ | ⟨z, rest⟩⟩⟩
    · exact absurd rfl h2
    · rcases p with _ | p
      · simp only [List.set_cons_zero] at heq h1
        rw [calculate_merkle_root_one, calculate_merkle_root_one] at heq
        have hcat := Hinj heq
        have hlb : (bytesT c).length = (bytesT x).length := by
          have hl := congrArg List.length hcat
          simp only [List.length_append] at hl
          omega
        exact Binj (List.append_inj hcat hlb).1
      · exfalso
        simp only [List.length_cons, List.length_nil] at hp
        omega
    · rcases p with _ | (_ | p)
      · simp only [List.set_cons_zero] at heq h1
        rw [calculate_merkle_root_two, calculate_merkle_root_two] at heq
        have hcat := Hinj heq
        exact Binj (List.append_inj' hcat rfl).1
      · simp only [List.set_cons_succ, List.set_cons_zero] at heq h1
        rw [calculate_merkle_root_two, calculate_merkle_root_two] at heq
        have hcat := Hinj heq
        exact Binj (List.append_cancel_left hcat)
      · exfalso
        simp only [List.length_cons, List.length_nil] at hp
        omega
    · -- at least three leaves: split at the midpoint and recurse into the
      -- half containing position `p`
      have hlen3 : 2 < (x :: y :: z :: rest).length := by simp [List.length_cons]
      have hlen3' : 2 < ((x :: y :: z :: rest).set p c).length := by
        simp only [List.length_set]; exact hlen3
      rw [calculate_merkle_root_split H bytesT _ hlen3' h1,
          calculate_merkle_root_split H bytesT _ hlen3 h2] at heq
      have hcat := Hinj heq
      have hlA := calculate_merkle_root_length H bytesT Hlen _ (take_half_ne_nil hlen3')
      have hlC := calculate_merkle_root_length H bytesT Hlen _ (take_half_ne_nil hlen3)
      obtain ⟨hleft, hright⟩ := List.append_inj hcat (hlA.trans hlC.symm)
      by_cases hpk : p < (x :: y :: z :: rest).length / 2
      · -- `p` lies in the left half
        have hptake : p < ((x :: y :: z :: rest).take
            ((x :: y :: z :: rest).length / 2)).length := by
          simp only [List.length_take]
          omega
        have e0 : ((x :: y :: z :: rest).set p c).take
              (((x :: y :: z :: rest).set p c).length / 2) =
            ((x :: y :: z :: rest).take ((x :: y :: z :: rest).length / 2)).set p c := by
          rw [List.length_set, List.set_take]
        have pf1 := set_ne_nil_of_lt hptake c
        have hA := (calculate_merkle_root_congr H bytesT e0.symm pf1
          (take_half_ne_nil hlen3')).trans hleft
        have hm : ((x :: y :: z :: rest).take
            ((x :: y :: z :: rest).length / 2)).length < n := by
          simp only [List.length_take]
          omega
        have hres := ih _ hm _ rfl p hptake c pf1 (take_half_ne_nil hlen3) hA
        rw [hres]
        simp only [List.get_eq_getElem, List.getElem_take]
      · -- `p` lies in the right half
        have hpdrop : p - (x :: y :: z :: rest).length / 2 <
            ((x :: y :: z :: rest).drop ((x :: y :: z :: rest).length / 2)).length := by
          simp only [List.length_drop]
          omega
        have e1 : ((x :: y :: z :: rest).set p c).drop
              (((x :: y :: z :: rest).set p c).length / 2) =
            ((x :: y :: z :: rest).drop ((x :: y :: z :: rest).length / 2)).set
              (p - (x :: y :: z :: rest).length / 2) c := by
          rw [List.length_set, List.drop_set, if_neg hpk]
        have pf2 := set_ne_nil_of_lt hpdrop c
        have hB := (calculate_merkle_root_congr H bytesT e1.symm pf2
          (drop_half_ne_nil hlen3')).trans hright
        have hm : ((x :: y :: z :: rest).drop
            ((x :: y :: z :: rest).length / 2)).length < n := by
          simp only [List.length_drop]
          omega
        have hres := ih _ hm _ rfl _ hpdrop c pf2 (drop_half_ne_nil hlen3) hB
        rw [hres]
        simp only [List.get_eq_getElem, List.getElem_drop]
        exact getElem_congr (by omega)

lemma encodeHash_injective : Function.Injective encodeHash := by
  intro a b hab
  simp only [encodeHash, List.cons.injEq] at hab
  exact Encodable.encode_injective hab.1

lemma encodeHash_length : ∀ bs, (encodeHash bs).length = BLOCKHASHLEN := by
  intro bs
  simp [encodeHash, BLOCKHASHLEN]

end BlockchainBase

namespace BlockchainBase

/-! Claim theorems. -/

/-- Claim C1: for every block built by `new(prev_hash, data, timestamp, nonce)`,
`curr_hash` equals the digest of the concatenation, in this exact order: the
bytes of `prev_hash` when it is `Some` (nothing when it is `None`), then the
concatenated byte serializations of the payload elements, then the 8
little-endian bytes of `timestamp`, then the 8 little-endian bytes of `nonce`,
then the bytes of `merkle_root`, then the single version byte. -/
theorem new_curr_hash_field_order {T : Type} (H : Bytes → BlockHash) (bytesT : T → Bytes)
    (prev_hash : Option BlockHash) (data : List T) (timestamp nonce : Nat) :
    (new H bytesT prev_hash data timestamp nonce).curr_hash =
      H ((match prev_hash with
          | some prev_h => prev_h
          | none => []) ++
         sliceBytes bytesT data ++
         u64le timestamp ++
         u64le nonce ++
         (new H bytesT prev_hash data timestamp nonce).merkle_root ++
         u8le VERSION) := by
  unfold new
  split <;> simp [calculate_hash, headerBytes]

/-- Claim C2: for every leaf sequence of length `n > 2`, the computed Merkle
root is the digest of the concatenation of the Merkle root of the left half
(the first `n / 2` leaves) with the Merkle root of the right half (the
remaining leaves), each recursively computed. -/
theorem merkle_root_split_midpoint {T : Type} (H : Bytes → BlockHash) (bytesT : T → Bytes)
    (blocks : List T) (hlen : 2 < blocks.length) (h : blocks ≠ [])
    (h1 : blocks.take (blocks.length / 2) ≠ []) (h2 : blocks.drop (blocks.length / 2) ≠ []) :
    calculate_merkle_root H bytesT blocks h =
      H (calculate_merkle_root H bytesT (blocks.take (blocks.length / 2)) h1 ++
         calculate_merkle_root H bytesT (blocks.drop (blocks.length / 2)) h2) := by
  rw [calculate_merkle_root_split H bytesT blocks hlen h]

/-- Witness for C2 at the 3-element sequence `[10, 20, 30]`: the left half is
the singleton `[10]`, the right half is `[20, 30]`. -/
theorem merkle_root_split_midpoint_witness :
    calculate_merkle_root (fun l => l) (fun x : Nat => [x]) [10, 20, 30] (by decide) =
      (fun l : Bytes => l)
        (calculate_merkle_root (fun l => l) (fun x : Nat => [x]) [10] (by decide) ++
         calculate_merkle_root (fun l => l) (fun x : Nat => [x]) [20, 30] (by decide)) := by
  have hsplit := merkle_root_split_midpoint (fun l => l) (fun x : Nat => [x])
    [10, 20, 30] (by decide) (by decide) (by decide) (by decide)
  simpa using hsplit

/-- Claim C3: the Merkle root of a one-element sequence `[x]` is the digest of
`bytes(x) ++ bytes(x)`, hashed exactly once. -/
theorem merkle_root_singleton {T : Type} (H : Bytes → BlockHash) (bytesT : T → Bytes)
    (x : T) :
    calculate_merkle_root H bytesT [x] (by simp) = H (bytesT x ++ bytesT x) := by
  simp [calculate_merkle_root]

/-- Claim C4: the Merkle root of a two-element sequence `[x, y]` is the digest
of the raw byte serializations `bytes(x) ++ bytes(y)` (the elements are not
individually hashed first), hashed exactly once. -/
theorem merkle_root_pair {T : Type} (H : Bytes → BlockHash) (bytesT : T → Bytes)
    (x y : T) :
    calculate_merkle_root H bytesT [x, y] (by simp) = H (bytesT x ++ bytesT y) := by
  simp [calculate_merkle_root]

/-- Claim C5: for every block built from a non-empty payload, every in-bounds
position `p` and every candidate value different from the leaf stored at `p`,
`check_value_inblock` returns `false` — equivalently, replacing any single
leaf by a different value changes the computed Merkle root.  The digest is
SHA-256, an external primitive modelled abstractly; the hypotheses `Hinj`
(collision-freeness) and `Hlen` (fixed 32-byte output) are the properties the
spec ascribes to it, and `Binj` states that leaf serialization is injective
(true of the shipped `i32` and `String` instances). -/
theorem check_value_inblock_different_false {T : Type} (H : Bytes → BlockHash)
    (bytesT : T → Bytes) (Hinj : Function.Injective H)
    (Hlen : ∀ bs, (H bs).length = BLOCKHASHLEN) (Binj : Function.Injective bytesT)
    (prev_hash : Option BlockHash) (data : List T) (timestamp nonce : Nat)
    (p : Nat) (hp : p < data.length) (c : T) (hc : c ≠ data.get ⟨p, hp⟩) :
    check_value_inblock H bytesT (new H bytesT prev_hash data timestamp nonce) c p =
      false := by
  have hdata := new_data H bytesT prev_hash data timestamp nonce
  have hp' : p < (new H bytesT prev_hash data timestamp nonce).data.length := by
    rw [hdata]; exact hp
  have hne := set_ne_nil_of_lt hp' c
  have hdne : data ≠ [] := by
    intro hd; subst hd; simp at hp
  cases hb : check_value_inblock H bytesT (new H bytesT prev_hash data timestamp nonce) c p
  · rfl
  · exfalso
    rw [check_value_inblock_true_iff H bytesT _ c p hp' hne] at hb
    have e : (new H bytesT prev_hash data timestamp nonce).data.set p c = data.set p c := by
      rw [hdata]
    have hne2 : data.set p c ≠ [] := set_ne_nil_of_lt hp c
    have hb2 : calculate_merkle_root H bytesT (data.set p c) hne2 =
        calculate_merkle_root H bytesT data hdne :=
      ((calculate_merkle_root_congr H bytesT e hne hne2).symm.trans hb).trans
        (new_merkle_root_ne_nil H bytesT prev_hash data timestamp nonce hdne)
    exact hc (merkle_root_set_ne H bytesT Hinj Hlen Binj data.length data rfl p hp c
      hne2 hdne hb2)

/-- Witness for C5: in the block over payload `[5, 7]`, the candidate `6` at
position 0 (whose original leaf is `5`) is rejected, instantiating the digest
with the injective fixed-length `encodeHash`. -/
theorem check_value_inblock_different_false_witness :
    check_value_inblock encodeHash (fun x : Nat => [x])
      (new encodeHash (fun x : Nat => [x]) none [5, 7] 4 3) 6 0 = false :=
  check_value_inblock_different_false encodeHash (fun x : Nat => [x])
    encodeHash_injective encodeHash_length (fun a b hab => by simpa using hab)
    none [5, 7] 4 3 0 (by decide) 6 (by decide)

/-- Claim C6: for every block with a non-empty payload and every in-bounds
position `p`, calling `check_value_inblock` with exactly the value stored at
position `p` when the block was constructed returns `true`. -/
theorem check_value_inblock_original_true {T : Type} (H : Bytes → BlockHash)
    (bytesT : T → Bytes) (prev_hash : Option BlockHash) (data : List T)
    (timestamp nonce : Nat) (p : Nat) (hp : p < data.length) :
    check_value_inblock H bytesT (new H bytesT prev_hash data timestamp nonce)
      (data.get ⟨p, hp⟩) p = true := by
  have hdata := new_data H bytesT prev_hash data timestamp nonce
  have hp' : p < (new H bytesT prev_hash data timestamp nonce).data.length := by
    rw [hdata]; exact hp
  have hne := set_ne_nil_of_lt hp' (data.get ⟨p, hp⟩)
  rw [check_value_inblock_true_iff H bytesT _ _ p hp' hne]
  have hdne : data ≠ [] := by
    intro hd; subst hd; simp at hp
  have he : (new H bytesT prev_hash data timestamp nonce).data.set p (data.get ⟨p, hp⟩) =
      data := by
    rw [hdata]
    exact set_getElem_eq_self data p hp
  rw [calculate_merkle_root_congr H bytesT he hne hdne]
  exact (new_merkle_root_ne_nil H bytesT prev_hash data timestamp nonce hdne).symm

/-- Witness for C6: the original value `7` at position 1 of the payload
`[5, 7]` is accepted. -/
theorem check_value_inblock_original_true_witness :
    check_value_inblock (fun l => l) (fun x : Nat => [x])
      (new (fun l => l) (fun x : Nat => [x]) none [5, 7] 4 3)
      ([5, 7].get ⟨1, by decide⟩) 1 = true :=
  check_value_inblock_original_true (fun l => l) (fun x : Nat => [x]) none [5, 7] 4 3 1
    (by decide)

/-- Claim C7: for every block, candidate value and position at or past the end
of the payload (including every position when the payload is empty),
`check_value_inblock` returns `false` as a normal boolean result, without
recomputing or consulting the stored `merkle_root` (the theorem holds for an
arbitrary block, whatever its `merkle_root` field holds). -/
theorem check_value_inblock_out_of_bounds {T : Type} (H : Bytes → BlockHash)
    (bytesT : T → Bytes) (b : BlockchainBlock T) (c : T) (position : Nat)
    (hp : b.data.length ≤ position) :
    check_value_inblock H bytesT b c position = false := by
  rw [check_value_inblock, dif_pos hp]

/-- Witness for C7 at a concrete block with empty payload and position 0. -/
theorem check_value_inblock_out_of_bounds_witness :
    check_value_inblock (fun l => l) (fun x : Nat => [x])
      ⟨[], none, [], 0, 0, [9, 9], 0⟩ 5 0 = false :=
  check_value_inblock_out_of_bounds (fun l => l) (fun x : Nat => [x])
    ⟨[], none, [], 0, 0, [9, 9], 0⟩ 5 0 (by decide)

/-- Claim C8: constructing a block from an empty payload succeeds and leaves
`merkle_root` as the all-zero 32-byte sentinel (the Merkle computation is
never invoked); with a non-empty payload, `merkle_root` is the computed
Merkle root of the leaves. -/
theorem new_merkle_root_sentinel {T : Type} (H : Bytes → BlockHash) (bytesT : T → Bytes)
    (prev_hash : Option BlockHash) (timestamp nonce : Nat) :
    (new H bytesT prev_hash ([] : List T) timestamp nonce).merkle_root =
        List.replicate 32 0 ∧
    ∀ (data : List T) (h : data ≠ []),
      (new H bytesT prev_hash data timestamp nonce).merkle_root =
        calculate_merkle_root H bytesT data h := by
  constructor
  · simp [new, calculate_hash, zeroHash, BLOCKHASHLEN]
  · intro data h
    have hpos : 0 < data.length := List.length_pos.mpr h
    simp [new, calculate_hash, hpos]

/-- Witness for C8 at the payload `[5]`. -/
theorem new_merkle_root_sentinel_witness :
    (new (fun l => l) (fun x : Nat => [x]) none [5] 4 3).merkle_root =
      calculate_merkle_root (fun l => l) (fun x : Nat => [x]) [5] (by decide) :=
  (new_merkle_root_sentinel (fun l => l) (fun x : Nat => [x]) none 4 3).2 [5] (by decide)

/-- Claim C9: the byte serialization of a sequence is the concatenation, in
iteration order, of the byte serialization of each element, with nothing inserted
between elements; hence it is a homomorphism from sequence concatenation to
byte-string concatenation. -/
theorem sliceBytes_append_hom {T : Type} (bytesT : T → Bytes) (xs ys : List T) :
    sliceBytes bytesT (xs ++ ys) = sliceBytes bytesT xs ++ sliceBytes bytesT ys ∧
    sliceBytes bytesT xs = (xs.map bytesT).flatten := by
  constructor
  · induction xs with
    | nil => simp [sliceBytes]
    | cons x xs ih => simp [sliceBytes, ih]
  · induction xs with
    | nil => simp [sliceBytes]
    | cons x xs ih => simp [sliceBytes, ih]

/-- Claim C10: every public operation terminates on every input.  The
fuel-indexed transcriptions of the source recursion (`merkleRootFuel`,
`newFuel`, `checkFuel`) never run out of fuel: the merkle recursion needs at
most `length blocks` unfoldings on every non-empty leaf sequence, and the
constructor and the tamper check — which exclude the empty sequence by their
guards — succeed on every input (empty payload and out-of-bounds position
included), agreeing with the total embeddings `new` and
`check_value_inblock`. -/
theorem all_operations_terminate {T : Type} (H : Bytes → BlockHash) (bytesT : T → Bytes) :
    (∀ (fuel : Nat) (blocks : List T) (h : blocks ≠ []), blocks.length ≤ fuel →
        merkleRootFuel H bytesT fuel blocks =
          some (calculate_merkle_root H bytesT blocks h)) ∧
    (∀ (prev_hash : Option BlockHash) (data : List T) (timestamp nonce : Nat),
        newFuel H bytesT prev_hash data timestamp nonce =
          some (new H bytesT prev_hash data timestamp nonce)) ∧
    (∀ (b : BlockchainBlock T) (c : T) (p : Nat),
        checkFuel H bytesT b c p = some (check_value_inblock H bytesT b c p)) := by
  refine ⟨merkleRootFuel_eq H bytesT, ?_, ?_⟩
  · intro prev_hash data timestamp nonce
    by_cases hpos : 0 < data.length
    · have hrw := merkleRootFuel_eq H bytesT data.length data (List.length_pos.mp hpos) le_rfl
      simp [newFuel, new, hpos, hrw]
    · simp [newFuel, new, hpos]
  · intro b c p
    by_cases hp : p ≥ b.data.length
    · simp [checkFuel, check_value_inblock, hp]
    · have hlt : p < b.data.length := Nat.lt_of_not_le hp
      have hne := set_ne_nil_of_lt hlt c
      have hrw := merkleRootFuel_eq H bytesT (b.data.set p c).length (b.data.set p c) hne le_rfl
      simp only [checkFuel, check_value_inblock, if_neg hp, dif_neg hp, hrw]

/-- Witness for C10: fuel 1 suffices for the singleton `[5]`, and the fuelled
recursion agrees with the total embedding there. -/
theorem all_operations_terminate_witness :
    merkleRootFuel (fun l => l) (fun x : Nat => [x]) 1 [5] =
      some (calculate_merkle_root (fun l => l) (fun x : Nat => [x]) [5] (by decide)) :=
  (all_operations_terminate (fun l => l) (fun x : Nat => [x])).1 1 [5] (by decide) (by decide)

end BlockchainBase
